import Mathlib

/-!
Verification of the papagaio transition-statistics model and random-walk
generator (`src/main.rs`) against its specification.

The Rust program is shallowly embedded:
  * `HashMap` values become association lists (`List (String × _)`), with
    insertion order standing in for the map's arbitrary-but-deterministic
    iteration order;
  * `f32` values (the threshold and the draws of `rand::random()`) are
    embedded as exact rationals `ℚ`; draws are an explicit stream
    `ℕ → ℚ` together with a position, and `rand::random::<f32>()`'s
    contract (values in `[0,1)`) is the `ValidDraws` hypothesis;
  * the possibly non-terminating loop in `Iterator::next` is embedded with
    explicit fuel: a `none` result means the loop did not finish within the
    given fuel, so "the call terminates" is "some fuel suffices";
  * integer casts (`as i32`, `as usize`) on non-negative values are floors,
    embedded with `Rat.floor` and `Int.toNat` (both saturate at zero
    exactly as Rust's float-to-unsigned cast does for negative values).
-/

namespace Papagaio

/-- Modelled from the spec: the Unicode NFKD compatibility-decomposition
table lives in the external `unicode_normalization` crate, not in this
repository's sources.  `nfkdFirst c` models the first code point of the
NFKD decomposition of `c`, on a finite representative table faithful to
the Unicode data for the listed characters (accented and full-width
letters, a ligature); characters outside the table decompose to
themselves. -/
def nfkdFirst (c : Char) : Char :=
  if c = 'Á' then 'A'
  else if c = 'Ａ' then 'A'
  else if c = 'ﬁ' then 'f'
  else if c = 'á' then 'a'
  else c

/-- Modelled from the spec: `char::to_lowercase` is Rust standard-library
code, not in this repository's sources.  `lowerFirst c` models the first
code point of the lowercase mapping of `c` on a finite representative
table; characters outside the table (in particular every character that
is already lowercase) map to themselves. -/
def lowerFirst (c : Char) : Char :=
  if c = 'A' then 'a'
  else if c = 'B' then 'b'
  else if c = 'C' then 'c'
  else if c = 'F' then 'f'
  else c

/-- `fn normalize(ch: char) -> char` (src/main.rs:179-187): NFKD-decompose
the character, lowercase the result, and keep the first code point; this
equals taking the lowercase of the first code point of the NFKD
decomposition. -/
def normalize (c : Char) : Char := lowerFirst (nfkdFirst c)

/-- `word.chars().map(normalize).collect()` applied to a whole token
(src/main.rs:164-171 and 230-234). -/
def normStr (s : String) : String := String.mk (s.data.map normalize)

/-- C9: the normalizer is idempotent: for every character `x` (of the
modelled Unicode tables), `normalize (normalize x) = normalize x`. -/
theorem c9_normalize_idempotent (c : Char) :
    normalize (normalize c) = normalize c := by
  by_cases h1 : c = 'Á'
  · subst h1; decide
  by_cases h2 : c = 'Ａ'
  · subst h2; decide
  by_cases h3 : c = 'ﬁ'
  · subst h3; decide
  by_cases h4 : c = 'á'
  · subst h4; decide
  by_cases h5 : c = 'A'
  · subst h5; decide
  by_cases h6 : c = 'B'
  · subst h6; decide
  by_cases h7 : c = 'C'
  · subst h7; decide
  by_cases h8 : c = 'F'
  · subst h8; decide
  have hc : normalize c = c := by
    simp [normalize, nfkdFirst, lowerFirst, h1, h2, h3, h4, h5, h6, h7, h8]
  rw [hc, hc]

/-- `struct Stat { next: HashMap<String, i32> }` (src/main.rs:12-15), as an
association list from neighbor to its observed count. -/
abbrev Stat := List (String × Nat)

/-- `struct Stats { of: HashMap<String, Stat> }` (src/main.rs:7-10), as an
association list from token to its neighbor-count table. -/
abbrev Stats := List (String × Stat)

/-- The inner increment of `Stats::update` (src/main.rs:200-204):
`stat.next.entry(neigh).or_insert(0); *number += 1` — bump the count of
`neigh`, inserting it with count 1 if absent. -/
def bumpEntry : Stat → String → Stat
  | [], n => [(n, 1)]
  | (k, v) :: t, n => if k = n then (k, v + 1) :: t else (k, v) :: bumpEntry t n

/-- `Stats::update` (src/main.rs:200-204): fetch-or-create the entry of
`word` and bump the count of `neigh` inside it. -/
def Stats.update : Stats → String → String → Stats
  | [], w, n => [(w, [(n, 1)])]
  | (k, e) :: t, w, n =>
      if k = w then (k, bumpEntry e n) :: t else (k, e) :: Stats.update t w n

/-- `line.split_whitespace()` (src/main.rs:160), modelled on the space
character: split the character list into maximal non-space runs, dropping
empty pieces. -/
def wordsOfAux : List Char → List Char → List String
  | [], acc => if acc = [] then [] else [String.mk acc.reverse]
  | c :: cs, acc =>
      if c = ' ' then
        if acc = [] then wordsOfAux cs []
        else String.mk acc.reverse :: wordsOfAux cs []
      else wordsOfAux cs (c :: acc)

/-- The words of one input line. -/
def wordsOf (line : String) : List String := wordsOfAux line.data []

/-- `line.split_whitespace().cycle().skip(1)` (src/main.rs:161), truncated
to the length at which `zip` with the words of the line stops consuming
it: the word list rotated left by one. -/
def cycledSnd (ws : List String) : List String :=
  ((ws ++ ws).drop 1).take ws.length

/-- `read_stats` (src/main.rs:150-177) with the input lines passed
explicitly instead of read from stdin: for each line independently, zip
its words with the cycled-and-shifted copy of the same words and feed
each normalized pair into `Stats::update`. -/
def read_stats (lines : List String) : Stats :=
  lines.foldl
    (fun st line =>
      let w_fst := wordsOf line
      let w_snd := cycledSnd w_fst
      (w_fst.zip w_snd).foldl
        (fun st p => st.update (normStr p.1) (normStr p.2)) st)
    []

/-- If both lists have an element at `i`, so does their zip, pairing them. -/
theorem getElem?_zip_of_both {α β : Type} (l : List α) (l' : List β)
    (i : ℕ) (a : α) (b : β) (ha : l[i]? = some a) (hb : l'[i]? = some b) :
    (l.zip l')[i]? = some (a, b) := by
  induction l generalizing l' i with
  | nil => simp at ha
  | cons x xs ih =>
    cases l' with
    | nil => simp at hb
    | cons y ys =>
      cases i with
      | zero =>
        simp only [List.getElem?_cons_zero, Option.some.injEq] at ha hb
        simp [List.zip_cons_cons, ha, hb]
      | succ j =>
        simp only [List.getElem?_cons_succ] at ha hb
        simpa [List.zip_cons_cons] using ih ys j ha hb

/-- The cycled second stream holds, at position `i`, the word at position
`(i+1) mod n` of the line. -/
theorem cycledSnd_getElem? (ws : List String) (i : ℕ) (h : i < ws.length) :
    (cycledSnd ws)[i]? = ws[(i + 1) % ws.length]? := by
  have hlen : 0 < ws.length := Nat.zero_lt_of_lt h
  have htake : (cycledSnd ws)[i]? = ((ws ++ ws).drop 1)[i]? := by
    simp [cycledSnd, List.getElem?_take, h]
  have hdrop : ((ws ++ ws).drop 1)[i]? = (ws ++ ws)[i + 1]? := by
    simp [List.getElem?_drop, Nat.add_comm]
  rw [htake, hdrop, List.getElem?_append]
  rcases Nat.lt_or_ge (i + 1) ws.length with hlt | hge
  · rw [if_pos hlt]
    have : (i + 1) % ws.length = i + 1 := Nat.mod_eq_of_lt hlt
    rw [this]
  · have hi1 : i + 1 = ws.length := by omega
    have hmod : (i + 1) % ws.length = 0 := by
      rw [hi1]
      exact Nat.mod_self _
    rw [hmod, if_neg (by omega), hi1, Nat.sub_self]

/-- C3: word-mode ingestion pairs each word of a line with the word that
immediately follows it within that same line, with wrap-around (the last
word pairs with the first word of the line), and never pairs words across
lines; for the single input line "a b a c" the transition counts are
exactly a -> {b:1, c:1}, b -> {a:1}, c -> {a:1}, and for the two-line
input "a b" / "c d" each line cycles within itself only. -/
theorem c3_line_pairing :
    (∀ (ws : List String) (i : ℕ) (h : i < ws.length),
        (ws.zip (cycledSnd ws))[i]? =
          some (ws.get ⟨i, h⟩,
                ws.get ⟨(i + 1) % ws.length,
                        Nat.mod_lt _ (Nat.zero_lt_of_lt h)⟩)) ∧
    read_stats ["a b a c"] =
      [("a", [("b", 1), ("c", 1)]), ("b", [("a", 1)]), ("c", [("a", 1)])] ∧
    read_stats ["a b", "c d"] =
      [("a", [("b", 1)]), ("b", [("a", 1)]),
       ("c", [("d", 1)]), ("d", [("c", 1)])] := by
  refine ⟨?_, by decide, by decide⟩
  intro ws i h
  have h2 : (i + 1) % ws.length < ws.length :=
    Nat.mod_lt _ (Nat.zero_lt_of_lt h)
  apply getElem?_zip_of_both
  · simp [List.getElem?_eq_getElem h]
  · rw [cycledSnd_getElem? ws i h]
    simp [List.getElem?_eq_getElem h2]

/-- Witness for C3 at the line ["a", "b"], index 1: the last word pairs
with the first by wrap-around. -/
theorem c3_witness :
    ((["a", "b"] : List String).zip (cycledSnd ["a", "b"]))[1]? =
      some ("b", "a") :=
  (c3_line_pairing.1 ["a", "b"] 1 (by decide)).trans (by decide)

/-- Comparison used by `permutation::sort(numbers)` in
`determine_highest_usage` (src/main.rs:143): order the (neighbor, count)
pairs by ascending count. -/
def leSnd (a b : String × Nat) : Prop := a.2 ≤ b.2

instance : DecidableRel leSnd := fun a b => inferInstanceAs (Decidable (a.2 ≤ b.2))

instance : IsTotal (String × Nat) leSnd := ⟨fun a b => Nat.le_total a.2 b.2⟩

instance : IsTrans (String × Nat) leSnd := ⟨fun _ _ _ h1 h2 => Nat.le_trans h1 h2⟩

/-- `determine_highest_usage` (src/main.rs:134-148): for each token, read
its (neighbor, count) pairs, stably sort them by ascending count (the
source computes the sorting permutation of the counts with
`permutation::sort`, a stable sort, and applies it to the parallel vector
of neighbors — the same function as stably sorting the pairs by count and
projecting out the neighbors), and keep the neighbor sequence only. -/
def determine_highest_usage (stats : Stats) : List (String × List String) :=
  stats.map (fun we => (we.1, (List.insertionSort leSnd we.2).map Prod.fst))

/-- The count a neighbor had in the transition table under `key`
(0 when absent; absence never happens for ranked neighbors). -/
def countIn (stats : Stats) (key nbr : String) : ℕ :=
  (List.lookup nbr ((List.lookup key stats).getD [])).getD 0

/-- Association-list lookup at the head key. -/
theorem lookup_cons_self {β : Type} (a : String) (b : β)
    (t : List (String × β)) : List.lookup a ((a, b) :: t) = some b := by
  have hb : (a == a) = true := by simp
  simp [List.lookup, hb]

/-- Association-list lookup skips a head with a different key. -/
theorem lookup_cons_ne {β : Type} (k a : String) (b : β)
    (t : List (String × β)) (h : k ≠ a) :
    List.lookup k ((a, b) :: t) = List.lookup k t := by
  have hb : (k == a) = false := by simp [h]
  simp [List.lookup, hb]

/-- Looking a key up in the ranked-neighbor structure finds the sorted
projection of the key's table entry. -/
theorem lookup_determine (s : Stats) (k : String) :
    List.lookup k (determine_highest_usage s) =
      (List.lookup k s).map
        (fun e => (List.insertionSort leSnd e).map Prod.fst) := by
  induction s with
  | nil => rfl
  | cons hd t ih =>
    obtain ⟨a, b⟩ := hd
    by_cases h : k = a
    · subst h
      simp [determine_highest_usage, lookup_cons_self]
    · simp only [determine_highest_usage, List.map_cons] at ih ⊢
      rw [lookup_cons_ne k a _ _ h, lookup_cons_ne k a _ _ h, ih]

/-- Bumping never empties an entry. -/
theorem bumpEntry_ne_nil (e : Stat) (n : String) : bumpEntry e n ≠ [] := by
  cases e with
  | nil => simp [bumpEntry]
  | cons hd t =>
    obtain ⟨k, v⟩ := hd
    by_cases h : k = n <;> simp [bumpEntry, h]

/-- The neighbor names of a bumped entry: unchanged when the neighbor was
present, extended by it at the end otherwise. -/
theorem map_fst_bumpEntry (e : Stat) (n : String) :
    (bumpEntry e n).map Prod.fst =
      if n ∈ e.map Prod.fst then e.map Prod.fst
      else e.map Prod.fst ++ [n] := by
  induction e with
  | nil => simp [bumpEntry]
  | cons hd t ih =>
    obtain ⟨k, v⟩ := hd
    by_cases h : k = n
    · simp [bumpEntry, h]
    · simp only [bumpEntry, if_neg h, List.map_cons, ih, List.mem_cons]
      by_cases hm : n ∈ t.map Prod.fst
      · simp [hm, Ne.symm h]
      · simp [hm, Ne.symm h]

/-- Bumping preserves distinctness of neighbor names. -/
theorem nodup_map_fst_bumpEntry (e : Stat) (n : String)
    (h : (e.map Prod.fst).Nodup) : ((bumpEntry e n).map Prod.fst).Nodup := by
  rw [map_fst_bumpEntry]
  split
  · exact h
  · next hm => simp [List.nodup_append, h, hm]

/-- Invariant of transition tables: every stored entry is non-empty and
names each neighbor at most once. -/
def StatsInv (s : Stats) : Prop :=
  ∀ k e, List.lookup k s = some e → e ≠ [] ∧ (e.map Prod.fst).Nodup

/-- Lookups after `Stats.update`: the updated key now holds its bumped
entry (starting from the empty entry when it was absent); other keys are
untouched. -/
theorem lookup_update (s : Stats) (w n k : String) :
    List.lookup k (s.update w n) =
      if k = w then some (bumpEntry ((List.lookup w s).getD []) n)
      else List.lookup k s := by
  induction s with
  | nil =>
    by_cases h : k = w
    · subst h
      simp [Stats.update, lookup_cons_self, List.lookup, bumpEntry]
    · show List.lookup k [(w, [(n, 1)])] = _
      rw [lookup_cons_ne k w _ _ h, if_neg h]
  | cons hd t ih =>
    obtain ⟨a, e⟩ := hd
    by_cases haw : a = w
    · subst haw
      by_cases h : k = a
      · subst h
        simp [Stats.update, lookup_cons_self]
      · simp [Stats.update, lookup_cons_ne k a _ _ h, h]
    · by_cases h : k = a
      · have hkw : ¬k = w := by rw [h]; exact haw
        rw [if_neg hkw]
        simp only [Stats.update, if_neg haw]
        rw [h, lookup_cons_self, lookup_cons_self]
      · simp only [Stats.update, if_neg haw]
        rw [lookup_cons_ne k a _ _ h, lookup_cons_ne k a _ _ h, ih,
            lookup_cons_ne w a _ _ (fun hh => haw hh.symm)]

/-- `Stats.update` preserves the table invariant. -/
theorem statsInv_update (s : Stats) (w n : String) (h : StatsInv s) :
    StatsInv (s.update w n) := by
  intro k e hl
  rw [lookup_update] at hl
  split at hl
  · cases hl
    constructor
    · exact bumpEntry_ne_nil _ _
    · apply nodup_map_fst_bumpEntry
      cases hw : List.lookup w s with
      | none => simp [hw]
      | some e' =>
        have := (h w e' hw).2
        simpa [hw] using this
  · exact h k e hl

/-- Folding `Stats.update` over any pair list preserves the invariant. -/
theorem statsInv_foldl_update (f g : String × String → String) :
    ∀ (ps : List (String × String)) (s : Stats), StatsInv s →
      StatsInv (ps.foldl (fun st p => st.update (f p) (g p)) s)
  | [], _, h => h
  | _ :: ps, s, h =>
    statsInv_foldl_update f g ps _ (statsInv_update s _ _ h)

/-- The empty table satisfies the invariant. -/
theorem statsInv_nil : StatsInv ([] : Stats) := by
  intro k e h
  simp [List.lookup] at h

/-- Every table the program builds from its input satisfies the
invariant. -/
theorem statsInv_read_stats (lines : List String) :
    StatsInv (read_stats lines) := by
  suffices h : ∀ (ls : List String) (s : Stats), StatsInv s →
      StatsInv (ls.foldl
        (fun st line =>
          let w_fst := wordsOf line
          let w_snd := cycledSnd w_fst
          (w_fst.zip w_snd).foldl
            (fun st p => st.update (normStr p.1) (normStr p.2)) st) s) by
    exact h lines [] statsInv_nil
  intro ls
  induction ls with
  | nil => exact fun s h => h
  | cons l t ih =>
    intro s h
    exact ih _ (statsInv_foldl_update (fun p => normStr p.1)
      (fun p => normStr p.2) _ s h)

/-- In an entry with distinct neighbor names, membership determines the
lookup result. -/
theorem lookup_eq_of_mem_of_nodup (l : Stat) (a : String) (b : ℕ)
    (hn : (l.map Prod.fst).Nodup) (hm : (a, b) ∈ l) :
    List.lookup a l = some b := by
  induction l with
  | nil => simp at hm
  | cons hd t ih =>
    obtain ⟨k, v⟩ := hd
    simp only [List.map_cons, List.nodup_cons] at hn
    rcases List.mem_cons.1 hm with heq | hmt
    · cases heq
      exact lookup_cons_self a b t
    · have hak : a ≠ k := by
        intro h
        subst h
        exact hn.1 (List.mem_map_of_mem Prod.fst hmt)
      rw [lookup_cons_ne a k _ _ hak, ih hn.2 hmt]

/-- C4: for every transition table the program builds and every key in it,
the ranked-neighbor list is non-empty, contains each neighbor exactly
once, and its underlying observed counts are non-decreasing from first to
last element. -/
theorem c4_ranked_neighbors (lines : List String) (key : String)
    (ranked : List String)
    (h : List.lookup key (determine_highest_usage (read_stats lines)) =
          some ranked) :
    ranked ≠ [] ∧ ranked.Nodup ∧
      List.Sorted (· ≤ ·) (ranked.map (countIn (read_stats lines) key)) := by
  rw [lookup_determine, Option.map_eq_some'] at h
  obtain ⟨e, he, hr⟩ := h
  obtain ⟨hne, hnd⟩ := statsInv_read_stats lines key e he
  have hperm : List.Perm (List.insertionSort leSnd e) e :=
    List.perm_insertionSort _ _
  subst hr
  refine ⟨?_, ?_, ?_⟩
  · intro hnil
    apply hne
    have : (List.insertionSort leSnd e).length = 0 := by
      simpa using congrArg List.length hnil
    have := hperm.length_eq.symm.trans this
    exact List.length_eq_zero.1 this
  · exact ((hperm.map Prod.fst).nodup_iff).2 hnd
  · have hs : List.Sorted leSnd (List.insertionSort leSnd e) :=
      List.sorted_insertionSort leSnd e
    rw [List.map_map]
    have hcongr :
        (List.insertionSort leSnd e).map
            (countIn (read_stats lines) key ∘ Prod.fst) =
          (List.insertionSort leSnd e).map Prod.snd := by
      apply List.map_congr_left
      intro p hp
      have hpe : p ∈ e := hperm.mem_iff.1 hp
      have : List.lookup p.1 e = some p.2 :=
        lookup_eq_of_mem_of_nodup e p.1 p.2 hnd hpe
      simp [countIn, he, this]
    rw [hcongr]
    exact hs.map Prod.snd (fun _ _ hab => hab)

/-- Witness for C4 at the example input "a b a c" and key "a". -/
theorem c4_witness :
    (["b", "c"] : List String) ≠ [] ∧ (["b", "c"] : List String).Nodup ∧
      List.Sorted (· ≤ ·)
        ((["b", "c"] : List String).map
          (countIn (read_stats ["a b a c"]) "a")) :=
  c4_ranked_neighbors ["a b a c"] "a" ["b", "c"] (by decide)

/-- The contract of `rand::random::<f32>()` (src/main.rs:247): every draw
of the stream lies in `[0,1)`. -/
def ValidDraws (draws : ℕ → ℚ) : Prop := ∀ i, 0 ≤ draws i ∧ draws i < 1

/-- The all-zero draw stream, used as a concrete instance in witnesses. -/
def zeroDraws : ℕ → ℚ := fun _ => 0

theorem validDraws_zero : ValidDraws zeroDraws := by
  intro i
  constructor
  · exact le_refl 0
  · show (0 : ℚ) < 1
    norm_num

/-- `struct Usage<'a>` (src/main.rs:17-22): the walker state — threshold,
current token, and the shared ranked-neighbor map. -/
structure Usage where
  threshold : ℚ
  current : String
  usage : List (String × List String)

/-- The seed-selection loop of `Usage::new` (src/main.rs:214-227): walk the
map's keys, remembering the last key seen, for `rounds` steps (or until
the keys run out); `first` starts as "A". -/
def pickFirst : List String → ℤ → String → String
  | [], _, first => first
  | k :: t, r, first => if r = 0 then first else pickFirst t (r - 1) k

/-- `Usage::new` (src/main.rs:207-237): clamp an out-of-range threshold to
the default 0.75 (no error is signalled — the function is total), pick the
seed token by the rounds loop with `rounds = (threshold * 10.0) as i32`,
and normalize it. -/
def Usage.new (threshold : ℚ) (usage : List (String × List String)) : Usage :=
  let t := if threshold < 0 ∨ 1 < threshold then 3 / 4 else threshold
  { threshold := t
    current := normStr (pickFirst (usage.map Prod.fst) (Rat.floor (t * 10)) "A")
    usage := usage }

/-- The inner rejection loop of `next` (src/main.rs:245-252): draw from the
stream at `pos`; accept when the draw reaches the threshold, else retry.
`gas` counts the retries still allowed before the `it_percent >= 30`
ceiling forces acceptance, so the loop enters with `gas = 30`; it returns
the accepted draw and the next stream position. -/
def drawLoopGas (thr : ℚ) (draws : ℕ → ℚ) : ℕ → ℕ → ℚ × ℕ
  | 0, pos => (draws pos, pos + 1)
  | g + 1, pos =>
      if thr ≤ draws pos then (draws pos, pos + 1)
      else drawLoopGas thr draws g (pos + 1)

/-- A draw at or above the threshold is accepted immediately. -/
theorem drawLoopGas_accept (thr : ℚ) (draws : ℕ → ℚ) (g pos : ℕ)
    (h : thr ≤ draws pos) :
    drawLoopGas thr draws (g + 1) pos = (draws pos, pos + 1) := by
  simp [drawLoopGas, h]

/-- `(percent * (candidates.len() as f32)) as usize` (src/main.rs:254):
Rust's float-to-usize cast truncates toward zero and saturates below at
zero, which for our values is `Int.toNat` of the floor. -/
def pickIndex (percent : ℚ) (n : ℕ) : ℕ := (Rat.floor (percent * n)).toNat

/-- Batteries' computable `Rat.floor` agrees with Mathlib's `⌊⌋`. -/
theorem ratFloor_eq (q : ℚ) : Rat.floor q = ⌊q⌋ :=
  le_antisymm (Int.le_floor.2 (Rat.le_floor.1 (le_refl _)))
    (Rat.le_floor.2 (Int.floor_le q))

/-- The body of `impl Iterator for Usage::next` (src/main.rs:242-264) with
explicit fuel for the unbounded outer loop.  One fuel unit is one outer
iteration: run the inner rejection loop, look the current token up (an
absent token ends the iterator: result `some (none, ..)`), map the
accepted draw to an index, and either emit the picked candidate (when it
differs from the current token and at least 30 iterations have passed) or
loop.  A `none` result means the outer loop did not finish within `fuel`
iterations.  The source's `&candidates[idx]` panics when out of bounds;
the index is in bounds for draws in `[0,1)`, so the `getD` default is
unreachable under `ValidDraws`. -/
def nextAux (thr : ℚ) (usage : List (String × List String))
    (draws : ℕ → ℚ) : ℕ → ℕ → String → ℕ → Option (Option String × String × ℕ)
  | 0, _, _, _ => Option.none
  | fuel + 1, pos, cur, itWord =>
      let pp := drawLoopGas thr draws 30 pos
      match List.lookup cur usage with
      | Option.none => some (Option.none, cur, pp.2)
      | some candidates =>
          let idx := pickIndex pp.1 candidates.length
          let picked := candidates.getD idx ""
          if picked = cur ∨ itWord < 30 then
            nextAux thr usage draws fuel pp.2 cur (itWord + 1)
          else some (some picked, picked, pp.2)

/-- `Usage::new(..).take(words)` (src/main.rs:72-73): pull up to `n` items
from the walker, stopping at end-of-sequence (or when a call's fuel runs
out, a modelling artifact that never fires in the theorems below). -/
def runWalker (thr : ℚ) (usage : List (String × List String))
    (draws : ℕ → ℚ) (fuel : ℕ) : ℕ → ℕ → String → List String
  | 0, _, _ => []
  | n + 1, pos, cur =>
      match nextAux thr usage draws fuel pos cur 0 with
      | some (some w, cur', pos') =>
          w :: runWalker thr usage draws fuel n pos' cur'
      | _ => []

/-- C6: an externally supplied threshold outside [0,1] is replaced by the
default 0.75, without signalling an error (`Usage::new` is total); a
threshold inside [0,1] is used unchanged. -/
theorem c6_threshold_clamp (t : ℚ) (u : List (String × List String)) :
    ((t < 0 ∨ 1 < t) → (Usage.new t u).threshold = 3 / 4) ∧
    (0 ≤ t → t ≤ 1 → (Usage.new t u).threshold = t) := by
  constructor
  · intro h
    simp [Usage.new, if_pos h]
  · intro h0 h1
    have hn : ¬(t < 0 ∨ 1 < t) := by
      push_neg
      exact ⟨h0, h1⟩
    simp [Usage.new, if_neg hn]

/-- Witness for C6 at the out-of-range threshold 2 and the in-range
threshold 1/2. -/
theorem c6_witness :
    (Usage.new 2 []).threshold = 3 / 4 ∧
    (Usage.new (1 / 2) []).threshold = 1 / 2 :=
  ⟨(c6_threshold_clamp 2 []).1 (Or.inr one_lt_two),
   (c6_threshold_clamp (1 / 2) []).2 one_half_pos.le one_half_lt_one.le⟩

/-- The rejection loop returns one of the stream's draws, and the position
just past it. -/
theorem drawLoopGas_exists_draw (thr : ℚ) (draws : ℕ → ℚ) :
    ∀ gas pos, ∃ k, drawLoopGas thr draws gas pos = (draws k, k + 1) := by
  intro gas
  induction gas with
  | zero => exact fun pos => ⟨pos, rfl⟩
  | succ g ih =>
    intro pos
    by_cases h : thr ≤ draws pos
    · exact ⟨pos, drawLoopGas_accept thr draws g pos h⟩
    · obtain ⟨k, hk⟩ := ih (pos + 1)
      exact ⟨k, by simp [drawLoopGas, h, hk]⟩

/-- C10: every draw accepted by the rejection loop lies in [0,1), and for
every non-empty candidate list the computed index
`floor(x * len(candidates))` is strictly below the length, so the
candidate lookup is always in bounds. -/
theorem c10_index_in_bounds (thr : ℚ) (draws : ℕ → ℚ)
    (hd : ValidDraws draws) (gas pos : ℕ) :
    (0 ≤ (drawLoopGas thr draws gas pos).1 ∧
      (drawLoopGas thr draws gas pos).1 < 1) ∧
    ∀ n : ℕ, 1 ≤ n → pickIndex (drawLoopGas thr draws gas pos).1 n < n := by
  obtain ⟨k, hk⟩ := drawLoopGas_exists_draw thr draws gas pos
  have h01 := hd k
  constructor
  · rw [hk]
    exact h01
  · intro n hn
    rw [hk]
    show pickIndex (draws k) n < n
    unfold pickIndex
    have hnn : (0 : ℚ) < n := by
      have h0n : (0 : ℕ) < n := by omega
      exact_mod_cast h0n
    have hlt : draws k * n < n := by
      have := mul_lt_mul_of_pos_right h01.2 hnn
      simpa using this
    have hfl : Rat.floor (draws k * n) < (n : ℤ) := by
      rw [ratFloor_eq]
      refine Int.floor_lt.2 ?_
      exact_mod_cast hlt
    omega

/-- Witness for C10 at the default threshold, the zero draw stream, and a
two-candidate list. -/
theorem c10_witness :
    pickIndex (drawLoopGas (3 / 4) zeroDraws 30 0).1 2 < 2 :=
  (c10_index_in_bounds (3 / 4) zeroDraws validDraws_zero 30 0).2 2 (by decide)

/-- C2: whatever the model, the threshold, and the sequence of random
draws, every item the walker emits differs from the walker's current
token at the time of emission — in particular, since the seed is the
initial current token, the first emitted item is never the seed. -/
theorem c2_no_self_emission (thr : ℚ) (usage : List (String × List String))
    (draws : ℕ → ℚ) (cur : String) :
    ∀ fuel pos itw w cur' pos',
      nextAux thr usage draws fuel pos cur itw = some (some w, cur', pos') →
      w ≠ cur ∧ cur' = w := by
  intro fuel
  induction fuel with
  | zero =>
    intro pos itw w cur' pos' h
    simp [nextAux] at h
  | succ f ih =>
    intro pos itw w cur' pos' h
    simp only [nextAux] at h
    cases hl : List.lookup cur usage with
    | none =>
      rw [hl] at h
      simp at h
    | some cands =>
      rw [hl] at h
      simp only at h
      by_cases hc :
          cands.getD (pickIndex (drawLoopGas thr draws 30 pos).1 cands.length)
            "" = cur ∨ itw < 30
      · rw [if_pos hc] at h
        exact ih _ _ _ _ _ h
      · rw [if_neg hc] at h
        simp only [Option.some.injEq, Prod.mk.injEq] at h
        obtain ⟨hw, hcur, _⟩ := h
        push_neg at hc
        refine ⟨?_, ?_⟩
        · rw [← hw]
          exact hc.1
        · rw [← hw, ← hcur]

/-- C8: when the current token has no entry in the ranked-neighbor map,
`next` ends the sequence without producing an item and leaves the current
token unchanged, so every later call ends the sequence too; a walker
seeded with an absent token therefore produces zero items. -/
theorem c8_exhausted_permanent (thr : ℚ)
    (usage : List (String × List String)) (draws : ℕ → ℚ) (cur : String)
    (h : List.lookup cur usage = Option.none) :
    (∀ fuel pos itw, ∃ pos',
        nextAux thr usage draws (fuel + 1) pos cur itw =
          some (Option.none, cur, pos')) ∧
    (∀ n fuel pos, runWalker thr usage draws fuel n pos cur = []) := by
  constructor
  · intro fuel pos itw
    refine ⟨(drawLoopGas thr draws 30 pos).2, ?_⟩
    simp only [nextAux, h]
  · intro n
    induction n with
    | zero => intro fuel pos; rfl
    | succ m _ =>
      intro fuel pos
      cases fuel with
      | zero => simp [runWalker, nextAux]
      | succ f =>
        have hstep : nextAux thr usage draws (f + 1) pos cur 0 =
            some (Option.none, cur, (drawLoopGas thr draws 30 pos).2) := by
          simp only [nextAux, h]
        simp [runWalker, hstep]

/-- Witness for C8: a walker whose token "z" is absent from a one-entry
map produces an immediate end-of-sequence and an empty run. -/
theorem c8_witness :
    (∃ pos', nextAux (3 / 4) [("q", ["r"])] zeroDraws 1 0 "z" 0 =
        some (Option.none, "z", pos')) ∧
    runWalker (3 / 4) [("q", ["r"])] zeroDraws 1 2 0 "z" = [] := by
  have h := c8_exhausted_permanent (3 / 4) [("q", ["r"])] zeroDraws "z"
    (by decide)
  exact ⟨h.1 0 0 0, h.2 2 1 0⟩

/-- On a one-candidate list, any draw in [0,1) maps to index 0. -/
theorem pickIndex_one_eq_zero (x : ℚ) (h0 : 0 ≤ x) (h1 : x < 1) :
    pickIndex x 1 = 0 := by
  unfold pickIndex
  have hcast : ((1 : ℕ) : ℚ) = 1 := by norm_cast
  rw [hcast, mul_one, ratFloor_eq,
      Int.floor_eq_zero_iff.2 (Set.mem_Ico.2 ⟨h0, h1⟩)]
  rfl

/-- In the self-loop-only model {"a" ↦ ["a"]}, every outer iteration of
`next` picks the sole candidate "a", which equals the current token, and
loops: no fuel suffices. -/
theorem selfLoop_spin (thr : ℚ) (draws : ℕ → ℚ) (hv : ValidDraws draws) :
    ∀ fuel pos itw,
      nextAux thr [("a", ["a"])] draws fuel pos "a" itw = Option.none := by
  intro fuel
  induction fuel with
  | zero => intro pos itw; rfl
  | succ f ih =>
    intro pos itw
    obtain ⟨k, hk⟩ := drawLoopGas_exists_draw thr draws 30 pos
    have h01 := hv k
    have hl : List.lookup "a" [("a", ["a"])] = some ["a"] := by decide
    simp only [nextAux, hk, hl]
    have hidx : pickIndex (draws k) (["a"] : List String).length = 0 :=
      pickIndex_one_eq_zero (draws k) h01.1 h01.2
    rw [hidx, show (["a"] : List String).getD 0 "" = "a" from rfl,
        if_pos (Or.inl rfl)]
    exact ih (k + 1) (itw + 1)

/-- C1 (amended): a call to `next` whose current token is absent from the
ranked-neighbor map terminates at once with end-of-sequence; but in the
boundary case where the current token's only ranked neighbor is the token
itself, the call never terminates for any in-range draw sequence — the
self-loop-avoidance check rejects the sole candidate forever and the code
has no bounded fallback for this case. -/
theorem c1_termination_amended :
    (∀ (thr : ℚ) (usage : List (String × List String)) (draws : ℕ → ℚ)
        (pos itw : ℕ) (cur : String),
        List.lookup cur usage = Option.none →
        ∃ pos', nextAux thr usage draws 1 pos cur itw =
          some (Option.none, cur, pos')) ∧
    (∀ (thr : ℚ) (draws : ℕ → ℚ), ValidDraws draws →
        ∀ fuel pos itw,
          nextAux thr [("a", ["a"])] draws fuel pos "a" itw = Option.none) := by
  constructor
  · intro thr usage draws pos itw cur h
    exact ⟨(drawLoopGas thr draws 30 pos).2, by simp only [nextAux, h]⟩
  · exact selfLoop_spin

/-- C1 counterexample: in the model {"a" ↦ ["a"]} (built, for instance,
from the single-word input line "a"), with current token "a", default
threshold, and the all-zero draw stream, no amount of fuel makes `next`
return — refuting the claim that every call terminates after finitely
many internal attempts, including the self-loop-only boundary case. -/
theorem c1_counterexample :
    ¬ ∃ fuel,
      (nextAux (3 / 4) [("a", ["a"])] zeroDraws fuel 0 "a" 0).isSome = true := by
  rintro ⟨fuel, hf⟩
  rw [selfLoop_spin (3 / 4) zeroDraws validDraws_zero fuel 0 0] at hf
  simp at hf

/-- Witness for C1 at an empty map (absent token, immediate end) and at
the self-loop model with fuel 3. -/
theorem c1_witness :
    (∃ pos', nextAux 0 [] zeroDraws 1 0 "x" 0 =
        some (Option.none, "x", pos')) ∧
    nextAux 0 [("a", ["a"])] zeroDraws 3 0 "a" 0 = Option.none :=
  ⟨c1_termination_amended.1 0 [] zeroDraws 0 0 "x" rfl,
   c1_termination_amended.2 0 zeroDraws validDraws_zero 3 0 0⟩

/-- One-step unfolding of the outer loop of `next`. -/
theorem nextAux_succ (thr : ℚ) (usage : List (String × List String))
    (draws : ℕ → ℚ) (fuel pos : ℕ) (cur : String) (itw : ℕ) :
    nextAux thr usage draws (fuel + 1) pos cur itw =
      (let pp := drawLoopGas thr draws 30 pos
       match List.lookup cur usage with
       | Option.none => some (Option.none, cur, pp.2)
       | some candidates =>
           let idx := pickIndex pp.1 candidates.length
           let picked := candidates.getD idx ""
           if picked = cur ∨ itw < 30 then
             nextAux thr usage draws fuel pp.2 cur (itw + 1)
           else some (some picked, picked, pp.2)) := rfl

/-- The ranked-neighbor map built from the spec's end-to-end example
input, the single word-mode line "a b a c". -/
def exampleUsage : List (String × List String) :=
  determine_highest_usage (read_stats ["a b a c"])

/-- A draw in [0,1) maps a two-candidate list to index 0 or 1, picking
"b" or "c" from the example's candidate list; spun through the
`it_word < 30` floor, the first emission happens on iteration 31 and is
"b" or "c", never "a". -/
theorem c5_spin (draws : ℕ → ℚ) (hv : ValidDraws draws) :
    ∀ k itw pos, itw + k = 30 →
      ∃ w pos', nextAux 0 exampleUsage draws (k + 1) pos "a" itw =
          some (some w, w, pos') ∧ (w = "b" ∨ w = "c") := by
  intro k
  induction k with
  | zero =>
    intro itw pos h30
    have hitw : itw = 30 := by omega
    subst hitw
    have h01 := hv pos
    have hacc : drawLoopGas 0 draws 30 pos = (draws pos, pos + 1) :=
      drawLoopGas_accept 0 draws 29 pos h01.1
    have hl : List.lookup "a" exampleUsage = some ["b", "c"] := by decide
    rw [nextAux_succ]
    simp only [hacc, hl]
    by_cases hp : draws pos * 2 < 1
    · have hidx : pickIndex (draws pos) (["b", "c"] : List String).length
          = 0 := by
        show pickIndex (draws pos) 2 = 0
        unfold pickIndex
        have hc2 : ((2 : ℕ) : ℚ) = 2 := by norm_cast
        rw [hc2, ratFloor_eq,
            Int.floor_eq_zero_iff.2
              (Set.mem_Ico.2 ⟨mul_nonneg h01.1 (by norm_num), hp⟩)]
        rfl
      rw [hidx, show (["b", "c"] : List String).getD 0 "" = "b" from rfl,
          if_neg (by decide)]
      exact ⟨"b", pos + 1, rfl, Or.inl rfl⟩
    · have h1' : 1 ≤ draws pos * 2 := le_of_not_lt hp
      have hidx : pickIndex (draws pos) (["b", "c"] : List String).length
          = 1 := by
        show pickIndex (draws pos) 2 = 1
        unfold pickIndex
        have hc2 : ((2 : ℕ) : ℚ) = 2 := by norm_cast
        have hf : ⌊draws pos * 2⌋ = 1 := by
          refine Int.floor_eq_iff.2 ⟨?_, ?_⟩
          · exact_mod_cast h1'
          · push_cast
            linarith [h01.2]
        rw [hc2, ratFloor_eq, hf]
        rfl
      rw [hidx, show (["b", "c"] : List String).getD 1 "" = "c" from rfl,
          if_neg (by decide)]
      exact ⟨"c", pos + 1, rfl, Or.inr rfl⟩
  | succ k ih =>
    intro itw pos h30
    have hlt : itw < 30 := by omega
    have h01 := hv pos
    have hacc : drawLoopGas 0 draws 30 pos = (draws pos, pos + 1) :=
      drawLoopGas_accept 0 draws 29 pos h01.1
    have hl : List.lookup "a" exampleUsage = some ["b", "c"] := by decide
    rw [nextAux_succ]
    simp only [hacc, hl]
    rw [if_pos (Or.inr hlt)]
    exact ih (itw + 1) (pos + 1) (by omega)

/-- C5: on the model built from the single word-mode line "a b a c", a
walker created with threshold 0 starts at token "a" (the rounds loop runs
zero rounds, leaving the initial "A", which normalizes to "a"), and for
every in-range draw sequence its first produced item exists and is "b" or
"c" — never "a". -/
theorem c5_first_item (draws : ℕ → ℚ) (hv : ValidDraws draws) :
    (Usage.new 0 exampleUsage).current = "a" ∧
    ∃ w pos', nextAux 0 exampleUsage draws 31 0 "a" 0 =
        some (some w, w, pos') ∧ (w = "b" ∨ w = "c") ∧ w ≠ "a" := by
  have hcur : (Usage.new 0 exampleUsage).current = "a" := by
    have hif : (if (0 : ℚ) < 0 ∨ 1 < (0 : ℚ) then (3 / 4 : ℚ) else 0) = 0 := by
      norm_num
    have hfl : Rat.floor ((0 : ℚ) * 10) = 0 := by
      rw [zero_mul, ratFloor_eq, Int.floor_zero]
    show normStr (pickFirst (List.map Prod.fst exampleUsage)
        (Rat.floor ((if (0 : ℚ) < 0 ∨ 1 < (0 : ℚ) then 3 / 4 else 0) * 10))
        "A") = "a"
    rw [hif, hfl]
    decide
  refine ⟨hcur, ?_⟩
  obtain ⟨w, pos', hw, hbc⟩ := c5_spin draws hv 30 0 0 (by omega)
  refine ⟨w, pos', hw, hbc, ?_⟩
  rcases hbc with h | h <;> rw [h] <;> decide

/-- Witness for C5 at the all-zero draw stream. -/
theorem c5_witness :
    (Usage.new 0 exampleUsage).current = "a" ∧
    ∃ w pos', nextAux 0 exampleUsage zeroDraws 31 0 "a" 0 =
        some (some w, w, pos') ∧ (w = "b" ∨ w = "c") ∧ w ≠ "a" :=
  c5_first_item zeroDraws validDraws_zero

/-- With the all-zero draw stream every accepted draw is 0, so the walker
at "a" in the example model always picks index 0 ("b") and, after the 30
forced retries, emits it: the concrete run used by the C2 witness. -/
theorem nextAux_zero_spin :
    ∀ k itw pos, itw + k = 30 →
      nextAux 0 exampleUsage zeroDraws (k + 1) pos "a" itw =
        some (some "b", "b", pos + (k + 1)) := by
  intro k
  induction k with
  | zero =>
    intro itw pos h30
    have hitw : itw = 30 := by omega
    subst hitw
    have hacc : drawLoopGas 0 zeroDraws 30 pos = (zeroDraws pos, pos + 1) :=
      drawLoopGas_accept 0 zeroDraws 29 pos (le_refl 0)
    have hl : List.lookup "a" exampleUsage = some ["b", "c"] := by decide
    rw [nextAux_succ]
    simp only [hacc, hl]
    have hidx : pickIndex (zeroDraws pos) (["b", "c"] : List String).length
        = 0 := by
      show pickIndex 0 2 = 0
      unfold pickIndex
      rw [zero_mul, ratFloor_eq, Int.floor_zero]
      rfl
    rw [hidx, show (["b", "c"] : List String).getD 0 "" = "b" from rfl,
        if_neg (by decide)]
  | succ k ih =>
    intro itw pos h30
    have hlt : itw < 30 := by omega
    have hacc : drawLoopGas 0 zeroDraws 30 pos = (zeroDraws pos, pos + 1) :=
      drawLoopGas_accept 0 zeroDraws 29 pos (le_refl 0)
    have hl : List.lookup "a" exampleUsage = some ["b", "c"] := by decide
    rw [nextAux_succ]
    simp only [hacc, hl]
    rw [if_pos (Or.inr hlt), ih (itw + 1) (pos + 1) (by omega)]
    have harith : pos + 1 + (k + 1) = pos + (k + 1 + 1) := by omega
    rw [harith]

/-- The concrete emission used to witness C2. -/
theorem nextAux_zero_eval :
    nextAux 0 exampleUsage zeroDraws 31 0 "a" 0 =
      some (some "b", "b", 31) :=
  nextAux_zero_spin 30 0 0 (by omega)

/-- Witness for C2 at the example model, threshold 0, and the all-zero
draw stream: the emitted "b" differs from the current token "a" and
becomes the new current token. -/
theorem c2_witness : ("b" : String) ≠ "a" ∧ "b" = "b" :=
  c2_no_self_emission 0 exampleUsage zeroDraws "a" 31 0 0 "b" "b" 31
    nextAux_zero_eval

/-- `enum ArgumentKind` (src/main.rs:35-39): what the next argument is
expected to be. -/
inductive ArgumentKind where
  | flag
  | words
  | threshold

/-- `struct Flags` (src/main.rs:24-27). -/
structure Flags where
  thres : ℚ
  words : ℕ

/-- `enum Arguments` (src/main.rs:29-33). -/
inductive Arguments where
  | none
  | print
  | values (flags : Flags)

/-- Modelled from the spec: digit-string parsing is Rust standard-library
code (`str::parse`), external to this repository; a non-empty all-digit
character list parses to its decimal value. -/
def digitsToNat? (cs : List Char) : Option ℕ :=
  if cs ≠ [] ∧ cs.all (fun c => c.isDigit) then
    some (cs.foldl (fun a c => a * 10 + (c.toNat - 48)) 0)
  else Option.none

/-- Split a character list at the first '.', if any. -/
def splitOnDot : List Char → List Char × Option (List Char)
  | [] => ([], Option.none)
  | c :: t =>
      if c = '.' then ([], some t)
      else
        let r := splitOnDot t
        (c :: r.1, r.2)

/-- Modelled from the spec: unsigned decimal parsing for `usize`. -/
def parseUsize (s : String) : Option ℕ := digitsToNat? s.data

/-- Integer-plus-fraction parsing of an unsigned decimal literal. -/
def parsePosF32 (cs : List Char) : Option ℚ :=
  match splitOnDot cs with
  | (ip, Option.none) => (digitsToNat? ip).map (fun n => (n : ℚ))
  | (ip, some fp) =>
      match digitsToNat? ip, digitsToNat? fp with
      | some a, some b => some ((a : ℚ) + (b : ℚ) / ((10 : ℚ) ^ fp.length))
      | _, _ => Option.none

/-- Modelled from the spec: `f32` parsing is Rust standard-library code,
external to this repository; modelled as a plain decimal parser with an
optional minus sign. -/
def parseF32 (s : String) : Option ℚ :=
  match s.data with
  | '-' :: t => (parsePosF32 t).map Neg.neg
  | t => parsePosF32 t

/-- `parse_arguments` (src/main.rs:83-114), one step per argument: in flag
position, "-p" succeeds immediately with `Print`, "-t"/"-w" switch the
expected kind, and anything else is an error; in value position, a parse
failure is an error and a parsed value is stored (creating the flags with
the other field defaulted).  When the list ends — in whatever state — the
accumulated configuration is returned as success. -/
def parseArgsLoop :
    List String → ArgumentKind → Option Flags → Except String Arguments
  | [], _, acc =>
      Except.ok (match acc with
        | Option.none => Arguments.none
        | some f => Arguments.values f)
  | arg :: rest, ArgumentKind.flag, acc =>
      if arg = "-p" then Except.ok Arguments.print
      else if arg = "-t" then parseArgsLoop rest ArgumentKind.threshold acc
      else if arg = "-w" then parseArgsLoop rest ArgumentKind.words acc
      else Except.error ("invalid flag: " ++ arg)
  | arg :: rest, ArgumentKind.threshold, acc =>
      match parseF32 arg with
      | Option.none => Except.error ("invalid value: " ++ arg)
      | some v =>
          parseArgsLoop rest ArgumentKind.flag
            (some (match acc with
              | Option.none => { thres := v, words := 100 }
              | some f => { f with thres := v }))
  | arg :: rest, ArgumentKind.words, acc =>
      match parseUsize arg with
      | Option.none => Except.error ("invalid value: " ++ arg)
      | some v =>
          parseArgsLoop rest ArgumentKind.flag
            (some (match acc with
              | Option.none => { thres := 3 / 4, words := v }
              | some f => { f with words := v }))

/-- The entry point: start in flag position with no flags gathered. -/
def parse_arguments (args : List String) : Except String Arguments :=
  parseArgsLoop args ArgumentKind.flag Option.none

/-- C7 counterexample: the list ["-t"] contains a `-t` flag missing its
required value, yet parsing succeeds — the loop simply ends while still
expecting a value and returns the accumulated configuration — refuting
the claim that every such list produces a configuration error. -/
theorem c7_counterexample :
    parse_arguments ["-t"] = Except.ok Arguments.none := rfl

/-- C7 (amended): argument parsing errors whenever, in flag position, it
meets an argument other than "-p"/"-t"/"-w", and whenever a "-t"/"-w"
value fails numeric parsing; but a "-t"/"-w" flag that is the last
argument (missing its value) is silently accepted with the settings
gathered so far, and "-p" succeeds immediately, ignoring everything after
it. -/
theorem c7_parse_errors :
    (∀ (a : String) (rest : List String) (acc : Option Flags),
        ¬(a = "-p" ∨ a = "-t" ∨ a = "-w") →
        parseArgsLoop (a :: rest) ArgumentKind.flag acc =
          Except.error ("invalid flag: " ++ a)) ∧
    (∀ (v : String) (rest : List String) (acc : Option Flags),
        parseF32 v = Option.none →
        parseArgsLoop (v :: rest) ArgumentKind.threshold acc =
          Except.error ("invalid value: " ++ v)) ∧
    (∀ (v : String) (rest : List String) (acc : Option Flags),
        parseUsize v = Option.none →
        parseArgsLoop (v :: rest) ArgumentKind.words acc =
          Except.error ("invalid value: " ++ v)) ∧
    parse_arguments ["-t"] = Except.ok Arguments.none ∧
    parse_arguments ["-w"] = Except.ok Arguments.none ∧
    (∀ rest, parse_arguments ("-p" :: rest) = Except.ok Arguments.print) := by
  refine ⟨?_, ?_, ?_, rfl, rfl, ?_⟩
  · intro a rest acc h
    push_neg at h
    simp only [parseArgsLoop, if_neg h.1, if_neg h.2.1, if_neg h.2.2]
  · intro v rest acc h
    simp only [parseArgsLoop, h]
  · intro v rest acc h
    simp only [parseArgsLoop, h]
  · intro rest
    simp [parse_arguments, parseArgsLoop]

/-- Witness for C7: an unrecognized flag, an unparsable threshold value,
an unparsable word count, and the short-circuiting "-p". -/
theorem c7_witness :
    parseArgsLoop ["-x"] ArgumentKind.flag Option.none =
        Except.error ("invalid flag: " ++ "-x") ∧
    parseArgsLoop ["abc"] ArgumentKind.threshold Option.none =
        Except.error ("invalid value: " ++ "abc") ∧
    parseArgsLoop ["abc"] ArgumentKind.words Option.none =
        Except.error ("invalid value: " ++ "abc") ∧
    parse_arguments ["-p", "bogus"] = Except.ok Arguments.print :=
  ⟨c7_parse_errors.1 "-x" [] Option.none (by decide),
   c7_parse_errors.2.1 "abc" [] Option.none (by decide),
   c7_parse_errors.2.2.1 "abc" [] Option.none (by decide),
   c7_parse_errors.2.2.2.2.2 ["bogus"]⟩

end Papagaio
